import Mathlib

/-!
A shallow embedding of the graphs repository: vertices, edges, graphs, and
the representation conversions (adjacency matrix, incidence matrix, CSR).
The Rust HashMap is modeled as an association list kept in insertion order
(insert replaces in place), so the unspecified hash iteration order becomes
the deterministic list order; all the spec's structural properties are
order-independent.  The f32 edge weights, which the library only stores,
copies, negates and compares, are modeled as integers.  A Rust unwrap of an
index-map lookup that could panic is modeled by propagating none.
-/

namespace Graphs

mutual
/-- Struct Vertex of vertex.rs: a string value and the list of edges attached
to this vertex. -/
inductive Vertex : Type where
  | mk (value : String) (edges : List Edge)

/-- Struct Edge of edge.rs: full snapshots of the two endpoint vertices plus
a weight. -/
inductive Edge : Type where
  | mk (vertex1 : Vertex) (vertex2 : Vertex) (weight : Int)
end

def Vertex.value : Vertex → String
  | .mk v _ => v

def Vertex.edges : Vertex → List Edge
  | .mk _ es => es

def Edge.vertex1 : Edge → Vertex
  | .mk v1 _ _ => v1

def Edge.vertex2 : Edge → Vertex
  | .mk _ v2 _ => v2

def Edge.weight : Edge → Int
  | .mk _ _ w => w

/-- Vertex::new: a vertex with an empty edge list. -/
def Vertex.new (value : String) : Vertex := .mk value []

/-- Vertex::add_edge: appends the edge to the vertex's own list. -/
def Vertex.add_edge (v : Vertex) (edge : Edge) : Vertex :=
  .mk v.value (v.edges ++ [edge])

/-- Edge::new. -/
def Edge.new (vertex1 vertex2 : Vertex) (weight : Int) : Edge :=
  .mk vertex1 vertex2 weight

/-! ### The HashMap model: an insertion-ordered association list -/

/-- HashMap::get / get_mut lookup: first binding of the key, if any. -/
def mapLookup : List (String × Vertex) → String → Option Vertex
  | [], _ => none
  | (k, v) :: rest, key => if k = key then some v else mapLookup rest key

/-- HashMap::insert: replace the binding in place if the key is present,
otherwise append it. -/
def mapInsert : List (String × Vertex) → String → Vertex → List (String × Vertex)
  | [], key, v => [(key, v)]
  | (k, w) :: rest, key, v =>
    if k = key then (key, v) :: rest else (k, w) :: mapInsert rest key v

/-- In-place mutation through get_mut: apply f to the value bound to the key,
leaving the map unchanged when the key is absent. -/
def mapUpdate : List (String × Vertex) → String → (Vertex → Vertex) → List (String × Vertex)
  | [], _, _ => []
  | (k, w) :: rest, key, f =>
    if k = key then (k, f w) :: rest else (k, w) :: mapUpdate rest key f

/-! ### The Graph struct and its mutating operations -/

/-- Struct Graph of graph.rs. -/
structure Graph where
  vertices : List (String × Vertex)
  directed : Bool
  edge_count : Nat

/-- Graph::new. -/
def Graph.new (directed : Bool) : Graph :=
  { vertices := [], directed := directed, edge_count := 0 }

/-- Graph::add_vertex: insert the vertex under its value as key. -/
def Graph.add_vertex (g : Graph) (vertex : Vertex) : Graph :=
  { g with vertices := mapInsert g.vertices vertex.value vertex }

/-- Graph::add_edge.  The Rust method mutates self and returns
Result of unit and String; here it returns the result paired with the new
graph state, so the partial mutation on the vertex2 error path is visible.
Checks vertex1 first; mutates vertex1; only in undirected mode looks up
vertex2 (in the already-mutated map) and mutates it; increments edge_count
only on the Ok paths. -/
def Graph.add_edge (g : Graph) (edge : Edge) : Except String Unit × Graph :=
  let vertex1_key := edge.vertex1.value
  let vertex2_key := edge.vertex2.value
  match mapLookup g.vertices vertex1_key with
  | none => (.error ("Vertex " ++ vertex1_key ++ " does not exist"), g)
  | some _ =>
    let g1 : Graph :=
      { g with vertices := mapUpdate g.vertices vertex1_key (fun v => v.add_edge edge) }
    if g.directed then
      (.ok (), { g1 with edge_count := g1.edge_count + 1 })
    else
      match mapLookup g1.vertices vertex2_key with
      | none => (.error ("Vertex " ++ vertex2_key ++ " does not exist"), g1)
      | some _ =>
        let g2 : Graph :=
          { g1 with vertices := mapUpdate g1.vertices vertex2_key (fun v => v.add_edge edge) }
        (.ok (), { g2 with edge_count := g2.edge_count + 1 })

/-! ### The representation conversions -/

/-- The double loop "for vertex in self.vertices.values, for edge in
vertex.edges" flattened: every stored edge, in scan order. -/
def Graph.allEdges (g : Graph) : List Edge :=
  (g.vertices.map (fun p => p.2.edges)).flatten

/-- The index map built by enumerating the map's keys in iteration order:
the position of the key in the key list (none models an absent key, whose
unwrap would panic in the source). -/
def keyIndex : List String → String → Option Nat
  | [], _ => none
  | k :: rest, key => if k = key then some 0 else (keyIndex rest key).map (· + 1)

/-- One cell read of a row-major matrix, with a default for out-of-range. -/
def matGet (m : List (List α)) (i j : Nat) (d : α) : α :=
  (m.getD i []).getD j d

/-- One cell write of a row-major matrix: matrix[i][j] = x. -/
def matSet (m : List (List α)) (i j : Nat) (x : α) : List (List α) :=
  m.set i ((m.getD i []).set j x)

/-- The edge loop of Graph::adjacency_matrix: for every stored edge set
matrix[i][j] = Some(weight), and also matrix[j][i] = Some(weight) when the
graph is undirected.  A failed index-map lookup (a panicking unwrap in the
source) yields none. -/
def adjFold (keys : List String) (directed : Bool) :
    List Edge → List (List (Option Int)) → Option (List (List (Option Int)))
  | [], m => some m
  | e :: rest, m =>
    match keyIndex keys e.vertex1.value, keyIndex keys e.vertex2.value with
    | some i, some j =>
      let m1 := matSet m i j (some e.weight)
      let m2 := if directed then m1 else matSet m1 j i (some e.weight)
      adjFold keys directed rest m2
    | _, _ => none

/-- Graph::adjacency_matrix. -/
def Graph.adjacency_matrix (g : Graph) : Option (List (List (Option Int))) :=
  let keys := g.vertices.map Prod.fst
  let size := g.vertices.length
  let matrix : List (List (Option Int)) := List.replicate size (List.replicate size none)
  adjFold keys g.directed g.allEdges matrix

/-- Membership in the edges_seen set, modeled as a list of key pairs. -/
def pairMem : List (String × String) → String × String → Bool
  | [], _ => false
  | q :: rest, p => if q = p then true else pairMem rest p

/-- The deduplication scan of Graph::incidence_matrix: keep the first
occurrence of each unordered endpoint-key pair, in scan order. -/
def scanEdges : List Edge → List (String × String) →
    List (String × String × Int) → List (String × String × Int)
  | [], _, acc => acc
  | e :: rest, seen, acc =>
    let v1 := e.vertex1.value
    let v2 := e.vertex2.value
    if pairMem seen (v1, v2) || pairMem seen (v2, v1) then
      scanEdges rest seen acc
    else
      scanEdges rest ((v1, v2) :: seen) (acc ++ [(v1, v2, e.weight)])

/-- The column-filling loop of Graph::incidence_matrix: edge number eidx
writes +weight at its source row and, in column eidx, either -weight
(directed) or +weight (undirected) at its destination row. -/
def incFold (keys : List String) (directed : Bool) :
    List (String × String × Int) → Nat → List (List Int) → Option (List (List Int))
  | [], _, m => some m
  | (v1, v2, w) :: rest, eidx, m =>
    match keyIndex keys v1, keyIndex keys v2 with
    | some i, some j =>
      let m1 := matSet m i eidx w
      let m2 := if directed then matSet m1 j eidx (-w) else matSet m1 j eidx w
      incFold keys directed rest (eidx + 1) m2
    | _, _ => none

/-- Graph::incidence_matrix. -/
def Graph.incidence_matrix (g : Graph) : Option (List (List Int)) :=
  let keys := g.vertices.map Prod.fst
  let num_vertices := g.vertices.length
  let edges := scanEdges g.allEdges [] []
  let num_edges := edges.length
  let matrix : List (List Int) := List.replicate num_vertices (List.replicate num_edges 0)
  incFold keys g.directed edges 0 matrix

/-- The inner loop body of Graph::csr_representation: push the other
endpoint of the edge (vertex2 if vertex1 is this vertex's key) onto
adjacents and bump indices[vertex_index + 1]. -/
def csrStep (vertex_key : String) (vertex_index : Nat)
    (p : List (Option String) × List Nat) (edge : Edge) :
    List (Option String) × List Nat :=
  let neighbor_value :=
    if edge.vertex1.value = vertex_key then edge.vertex2.value else edge.vertex1.value
  (p.1 ++ [some neighbor_value],
   p.2.set (vertex_index + 1) (p.2.getD (vertex_index + 1) 0 + 1))

/-- The main loop of Graph::csr_representation: for the vertex at position
vertex_index, run csrStep over its stored edges.  Iteration position and
index-map value coincide because map keys are unique. -/
def csrLoop : List (String × Vertex) → Nat → List (Option String) → List Nat →
    List (Option String) × List Nat
  | [], _, adjacents, indices => (adjacents, indices)
  | (vertex_key, vertex) :: rest, vertex_index, adjacents, indices =>
    let step := vertex.edges.foldl (csrStep vertex_key vertex_index) (adjacents, indices)
    csrLoop rest (vertex_index + 1) step.1 step.2

/-- The body of the in-place loop "for i in 1..indices.len, indices[i] +=
indices[i-1]", run for the given number of remaining iterations (the list
length never changes, so the iteration count is fixed up front). -/
def sumLoopAux : Nat → List Nat → Nat → List Nat
  | 0, indices, _ => indices
  | fuel + 1, indices, i =>
    sumLoopAux fuel (indices.set i (indices.getD i 0 + indices.getD (i - 1) 0)) (i + 1)

/-- The loop "for i in 1..indices.len, indices[i] += indices[i-1]" turning
per-vertex counts into a running prefix sum: len - 1 iterations from i = 1. -/
def sumLoop (indices : List Nat) : List Nat :=
  sumLoopAux (indices.length - 1) indices 1

/-- Graph::csr_representation. -/
def Graph.csr_representation (g : Graph) : List (Option String) × List Nat :=
  let indices : List Nat := List.replicate (g.vertices.length + 1) 0
  let step := csrLoop g.vertices 0 [] indices
  let indices := sumLoop step.2
  (step.1 ++ [none], indices)

/-! ### Client operations: the graph-building API surface -/

/-- A client operation on a graph: registering a freshly built vertex
(Vertex::new gives it an empty edge list) or submitting an edge. -/
inductive Op : Type where
  | addVertex (value : String)
  | addEdge (edge : Edge)

/-- Run a list of operations against a graph state; add_edge failures leave
their partial mutation in place, exactly as the Rust &mut self method does. -/
def runOps (g : Graph) : List Op → Graph
  | [] => g
  | Op.addVertex s :: rest => runOps (g.add_vertex (Vertex.new s)) rest
  | Op.addEdge e :: rest => runOps (g.add_edge e).2 rest

/-- 1 for Ok, 0 for an error. -/
def okNat : Except String Unit → Nat
  | .ok _ => 1
  | .error _ => 0

/-- The number of add_edge calls in the run that returned Ok. -/
def runOkCount (g : Graph) : List Op → Nat
  | [] => 0
  | Op.addVertex s :: rest => runOkCount (g.add_vertex (Vertex.new s)) rest
  | Op.addEdge e :: rest => okNat (g.add_edge e).1 + runOkCount (g.add_edge e).2 rest

/-- A run is safe when every add_edge call finds both endpoint keys in the
vertex map at the moment of the call. -/
def SafeRun (g : Graph) : List Op → Bool
  | [] => true
  | Op.addVertex s :: rest => SafeRun (g.add_vertex (Vertex.new s)) rest
  | Op.addEdge e :: rest =>
    (mapLookup g.vertices e.vertex1.value).isSome &&
    (mapLookup g.vertices e.vertex2.value).isSome &&
    SafeRun (g.add_edge e).2 rest

/-- The spec invariant on a vertex map: every edge stored in any vertex's
edge list references, by key, vertices present in the map. -/
def WFv (m : List (String × Vertex)) : Prop :=
  ∀ p ∈ m, ∀ e ∈ (Prod.snd p).edges,
    (mapLookup m e.vertex1.value).isSome = true ∧
    (mapLookup m e.vertex2.value).isSome = true

/-- The spec invariant on a graph. -/
def Graph.WF (g : Graph) : Prop := WFv g.vertices

/-- A rows × cols rectangular shape for a row-major matrix. -/
def Shape (m : List (List α)) (rows cols : Nat) : Prop :=
  m.length = rows ∧ ∀ row ∈ m, row.length = cols

/-! ### Specification helpers for the CSR shape -/

/-- The neighbor entries the CSR loop pushes for one vertex's edge list: the
other endpoint of each stored edge (vertex2 if vertex1 is this vertex's
key). -/
def nbrEntries (vertex_key : String) (es : List Edge) : List (Option String) :=
  es.map (fun e =>
    some (if e.vertex1.value = vertex_key then e.vertex2.value else e.vertex1.value))

/-- All CSR neighbor entries, in vertex-map order. -/
def flatNeighbors (m : List (String × Vertex)) : List (Option String) :=
  (m.map (fun p => nbrEntries p.1 p.2.edges)).flatten

/-- The per-vertex degrees: the length of each vertex's own edge list. -/
def degrees (m : List (String × Vertex)) : List Nat :=
  m.map (fun p => p.2.edges.length)

/-- Running prefix sums starting after s: accSums s [a, b, ...] =
[s+a, s+a+b, ...]. -/
def accSums (s : Nat) : List Nat → List Nat
  | [] => []
  | c :: cs => (s + c) :: accSums (s + c) cs

/-! ### Concrete graphs used by witnesses and counterexamples -/

/-- The undirected five-cycle of main.rs: vertices A..E, edges A-C, C-E,
E-B, B-D, D-A, each of weight 1. -/
def demoOps : List Op :=
  [Op.addVertex "A", Op.addVertex "B", Op.addVertex "C", Op.addVertex "D",
   Op.addVertex "E",
   Op.addEdge (Edge.new (Vertex.new "A") (Vertex.new "C") 1),
   Op.addEdge (Edge.new (Vertex.new "C") (Vertex.new "E") 1),
   Op.addEdge (Edge.new (Vertex.new "E") (Vertex.new "B") 1),
   Op.addEdge (Edge.new (Vertex.new "B") (Vertex.new "D") 1),
   Op.addEdge (Edge.new (Vertex.new "D") (Vertex.new "A") 1)]

/-- The graph main.rs builds. -/
def demoGraph : Graph := runOps (Graph.new false) demoOps

/-- A directed graph holding only vertex A. -/
def dirA : Graph := (Graph.new true).add_vertex (Vertex.new "A")

/-- An undirected graph holding only vertex A. -/
def undirA : Graph := (Graph.new false).add_vertex (Vertex.new "A")

/-- An edge from A to B built from fresh vertices. -/
def edgeAB : Edge := Edge.new (Vertex.new "A") (Vertex.new "B") 1

/-- The state after an undirected graph with only A ran add_edge on A-B:
the call errors but A keeps the dangling edge. -/
def danglingState : Graph :=
  runOps (Graph.new false) [Op.addVertex "A", Op.addEdge edgeAB]

/-- An undirected graph on A, B with two parallel A-B edges of different
weights (1 then 2). -/
def parallelGraph : Graph :=
  runOps (Graph.new false)
    [Op.addVertex "A", Op.addVertex "B",
     Op.addEdge (Edge.new (Vertex.new "A") (Vertex.new "B") 1),
     Op.addEdge (Edge.new (Vertex.new "A") (Vertex.new "B") 2)]

/-- An undirected graph on A with a self-loop of weight 1. -/
def loopGraph : Graph :=
  runOps (Graph.new false)
    [Op.addVertex "A", Op.addEdge (Edge.new (Vertex.new "A") (Vertex.new "A") 1)]

/-- An undirected graph on A, B with one A-B edge of weight 0. -/
def zeroWeightGraph : Graph :=
  runOps (Graph.new false)
    [Op.addVertex "A", Op.addVertex "B",
     Op.addEdge (Edge.new (Vertex.new "A") (Vertex.new "B") 0)]

/-- An undirected graph holding vertices A and B and no edge. -/
def pairBase : Graph :=
  runOps (Graph.new false) [Op.addVertex "A", Op.addVertex "B"]

/-- An edge from A to B of weight 5 built from fresh vertices. -/
def edgeAB5 : Edge := Edge.new (Vertex.new "A") (Vertex.new "B") 5

/-- An undirected graph on A, B with the single edge A-B of weight 5. -/
def pairGraph : Graph := (pairBase.add_edge edgeAB5).2

/-- A directed graph on A, B with the single edge A→B of weight 5. -/
def dirPair : Graph :=
  runOps (Graph.new true) [Op.addVertex "A", Op.addVertex "B", Op.addEdge edgeAB5]

/-! ### Accessor reductions -/

@[simp] theorem Vertex.value_mk (v : String) (es : List Edge) :
    (Vertex.mk v es).value = v := rfl

@[simp] theorem Vertex.edges_mk (v : String) (es : List Edge) :
    (Vertex.mk v es).edges = es := rfl

@[simp] theorem Edge.vertex1_mk (v1 v2 : Vertex) (w : Int) :
    (Edge.mk v1 v2 w).vertex1 = v1 := rfl

@[simp] theorem Edge.vertex2_mk (v1 v2 : Vertex) (w : Int) :
    (Edge.mk v1 v2 w).vertex2 = v2 := rfl

@[simp] theorem Edge.weight_mk (v1 v2 : Vertex) (w : Int) :
    (Edge.mk v1 v2 w).weight = w := rfl

/-! ### List lemmas used throughout -/

theorem getD_set_self {α : Type} (l : List α) (i : Nat) (x d : α) (h : i < l.length) :
    (l.set i x).getD i d = x := by
  simp [List.getD_eq_getElem?_getD, List.getElem?_set_self h]

theorem getD_set_ne {α : Type} (l : List α) {i j : Nat} (x d : α) (h : i ≠ j) :
    (l.set i x).getD j d = l.getD j d := by
  simp [List.getD_eq_getElem?_getD, List.getElem?_set_ne h]

theorem getD_replicate {α : Type} (n i : Nat) (a d : α) :
    (List.replicate n a).getD i d = if i < n then a else d := by
  rw [List.getD_eq_getElem?_getD, List.getElem?_replicate]
  split <;> rfl

theorem getD_append_left {α : Type} (a b : List α) (i : Nat) (d : α) (h : i < a.length) :
    (a ++ b).getD i d = a.getD i d := by
  simp [List.getD_eq_getElem?_getD, List.getElem?_append_left h]

theorem getD_append_right {α : Type} (a b : List α) (i : Nat) (d : α) (h : a.length ≤ i) :
    (a ++ b).getD i d = b.getD (i - a.length) d := by
  simp [List.getD_eq_getElem?_getD, List.getElem?_append_right h]

theorem set_append_right {α : Type} (a b : List α) (i : Nat) (x : α) (h : a.length ≤ i) :
    (a ++ b).set i x = a ++ b.set (i - a.length) x := by
  rw [List.set_append, if_neg (by omega)]

theorem set_getD_self {α : Type} : ∀ (l : List α) (i : Nat) (d : α), i < l.length →
    l.set i (l.getD i d) = l
  | a :: rest, 0, d, _ => rfl
  | a :: rest, i + 1, d, h => by
    simp only [List.set, List.getD_cons_succ]
    rw [set_getD_self rest i d (by simpa using h)]

/-! ### Lemmas about the map model -/

theorem mapLookup_insert_self (m : List (String × Vertex)) (k : String) (v : Vertex) :
    mapLookup (mapInsert m k v) k = some v := by
  induction m with
  | nil => simp [mapInsert, mapLookup]
  | cons p rest ih =>
    obtain ⟨k1, w⟩ := p
    by_cases h : k1 = k
    · simp [mapInsert, mapLookup, h]
    · simp [mapInsert, mapLookup, h, ih]

theorem mapLookup_insert_ne (m : List (String × Vertex)) (k k2 : String) (v : Vertex)
    (h : k ≠ k2) : mapLookup (mapInsert m k v) k2 = mapLookup m k2 := by
  induction m with
  | nil => simp [mapInsert, mapLookup, h]
  | cons p rest ih =>
    obtain ⟨k1, w⟩ := p
    by_cases h1 : k1 = k
    · subst h1
      simp [mapInsert, mapLookup, h]
    · simp [mapInsert, mapLookup, h1, ih]

theorem mapLookup_update_self (m : List (String × Vertex)) (k : String) (f : Vertex → Vertex) :
    mapLookup (mapUpdate m k f) k = Option.map f (mapLookup m k) := by
  induction m with
  | nil => simp [mapUpdate, mapLookup]
  | cons p rest ih =>
    obtain ⟨k1, w⟩ := p
    by_cases h : k1 = k
    · simp [mapUpdate, mapLookup, h]
    · simp [mapUpdate, mapLookup, h, ih]

theorem mapLookup_update_ne (m : List (String × Vertex)) (k k2 : String) (f : Vertex → Vertex)
    (h : k ≠ k2) : mapLookup (mapUpdate m k f) k2 = mapLookup m k2 := by
  induction m with
  | nil => simp [mapUpdate, mapLookup]
  | cons p rest ih =>
    obtain ⟨k1, w⟩ := p
    by_cases h1 : k1 = k
    · subst h1
      simp [mapUpdate, mapLookup, h]
    · simp [mapUpdate, mapLookup, h1, ih]

theorem mapUpdate_isSome (m : List (String × Vertex)) (k k2 : String) (f : Vertex → Vertex) :
    (mapLookup (mapUpdate m k f) k2).isSome = (mapLookup m k2).isSome := by
  by_cases h : k = k2
  · subst h
    rw [mapLookup_update_self]
    cases mapLookup m k <;> rfl
  · rw [mapLookup_update_ne m k k2 f h]

theorem mem_mapInsert (m : List (String × Vertex)) (k : String) (v : Vertex)
    (p : String × Vertex) (hp : p ∈ mapInsert m k v) : p = (k, v) ∨ p ∈ m := by
  induction m with
  | nil =>
    simp only [mapInsert, List.mem_singleton] at hp
    exact Or.inl hp
  | cons q rest ih =>
    obtain ⟨k1, w⟩ := q
    by_cases h : k1 = k
    · simp only [mapInsert, if_pos h] at hp
      rcases List.mem_cons.mp hp with h1 | h1
      · exact Or.inl h1
      · exact Or.inr (List.mem_cons_of_mem _ h1)
    · simp only [mapInsert, if_neg h] at hp
      rcases List.mem_cons.mp hp with h1 | h1
      · exact Or.inr (by simp [h1])
      · rcases ih h1 with h2 | h2
        · exact Or.inl h2
        · exact Or.inr (List.mem_cons_of_mem _ h2)

theorem mem_mapUpdate (m : List (String × Vertex)) (k : String) (f : Vertex → Vertex)
    (p : String × Vertex) (hp : p ∈ mapUpdate m k f) :
    p ∈ m ∨ ∃ w, (k, w) ∈ m ∧ p = (k, f w) := by
  induction m with
  | nil => simp [mapUpdate] at hp
  | cons q rest ih =>
    obtain ⟨k1, w⟩ := q
    by_cases h : k1 = k
    · subst h
      simp only [mapUpdate, if_pos rfl] at hp
      rcases List.mem_cons.mp hp with h1 | h1
      · exact Or.inr ⟨w, by simp, h1⟩
      · exact Or.inl (List.mem_cons_of_mem _ h1)
    · simp only [mapUpdate, if_neg h] at hp
      rcases List.mem_cons.mp hp with h1 | h1
      · exact Or.inl (by simp [h1])
      · rcases ih h1 with h2 | h2
        · exact Or.inl (List.mem_cons_of_mem _ h2)
        · obtain ⟨w2, hw2, hp2⟩ := h2
          exact Or.inr ⟨w2, List.mem_cons_of_mem _ hw2, hp2⟩

/-! ### Lemmas about the key-index map -/

theorem keyIndex_lt (keys : List String) (k : String) (i : Nat)
    (h : keyIndex keys k = some i) : i < keys.length := by
  induction keys generalizing i with
  | nil => simp [keyIndex] at h
  | cons k1 rest ih =>
    by_cases h1 : k1 = k
    · simp only [keyIndex, if_pos h1, Option.some.injEq] at h
      subst h
      simp
    · simp only [keyIndex, if_neg h1, Option.map_eq_some'] at h
      obtain ⟨j, hj, hji⟩ := h
      have := ih j hj
      simp only [List.length_cons]
      omega

theorem keyIndex_getD (keys : List String) (k : String) (i : Nat)
    (h : keyIndex keys k = some i) : keys.getD i "" = k := by
  induction keys generalizing i with
  | nil => simp [keyIndex] at h
  | cons k1 rest ih =>
    by_cases h1 : k1 = k
    · simp only [keyIndex, if_pos h1, Option.some.injEq] at h
      subst h
      simpa using h1
    · simp only [keyIndex, if_neg h1, Option.map_eq_some'] at h
      obtain ⟨j, hj, hji⟩ := h
      subst hji
      simpa using ih j hj

theorem keyIndex_isSome (m : List (String × Vertex)) (k : String) :
    (keyIndex (m.map Prod.fst) k).isSome = (mapLookup m k).isSome := by
  induction m with
  | nil => rfl
  | cons p rest ih =>
    obtain ⟨k1, w⟩ := p
    by_cases h : k1 = k
    · simp [keyIndex, mapLookup, h]
    · simp only [List.map_cons, keyIndex, mapLookup, if_neg h]
      rw [← ih]
      exact Option.isSome_map

/-! ### The add_edge error paths (claims C1, C3, C4) -/

/-- Claim C1 (code bug): in a directed graph, add_edge never looks up
vertex2, so with vertex B absent the call still returns Ok, stores the
dangling edge on A, bumps edge_count, and later drives adjacency_matrix
into its panic branch — contradicting the claim (and the method's own
documentation) that it errors whenever either endpoint key is absent. -/
theorem directed_add_edge_skips_vertex2_check :
    mapLookup dirA.vertices "B" = none ∧
    (dirA.add_edge edgeAB).1 = Except.ok () ∧
    (dirA.add_edge edgeAB).2.edge_count = 1 ∧
    mapLookup (dirA.add_edge edgeAB).2.vertices "A" = some (Vertex.mk "A" [edgeAB]) ∧
    (dirA.add_edge edgeAB).2.adjacency_matrix = none :=
  ⟨rfl, rfl, rfl, rfl, rfl⟩

/-- Claim C3: in an undirected graph whose map has vertex1's key but not
vertex2's, add_edge fails with the missing-vertex error for vertex2, yet
vertex1's edge list has already received the edge, and edge_count is
unchanged. -/
theorem add_edge_partial_mutation (g : Graph) (e : Edge) (v1 : Vertex)
    (hd : g.directed = false)
    (h1 : mapLookup g.vertices e.vertex1.value = some v1)
    (h2 : mapLookup g.vertices e.vertex2.value = none) :
    (g.add_edge e).1 = Except.error ("Vertex " ++ e.vertex2.value ++ " does not exist") ∧
    mapLookup (g.add_edge e).2.vertices e.vertex1.value = some (v1.add_edge e) ∧
    (g.add_edge e).2.edge_count = g.edge_count := by
  have hne : e.vertex1.value ≠ e.vertex2.value := by
    intro hkey
    rw [hkey, h2] at h1
    cases h1
  have h2b : mapLookup (mapUpdate g.vertices e.vertex1.value (fun v => v.add_edge e))
      e.vertex2.value = none := by
    rw [mapLookup_update_ne _ _ _ _ hne, h2]
  have h1b : mapLookup (mapUpdate g.vertices e.vertex1.value (fun v => v.add_edge e))
      e.vertex1.value = some (v1.add_edge e) := by
    rw [mapLookup_update_self, h1]
    rfl
  simp [Graph.add_edge, h1, hd, h2b, h1b]

/-- Witness for C3: the undirected one-vertex graph on A with edge A-B. -/
theorem add_edge_partial_mutation_witness :
    undirA.directed = false ∧
    (undirA.add_edge edgeAB).1 =
      Except.error ("Vertex " ++ edgeAB.vertex2.value ++ " does not exist") ∧
    mapLookup (undirA.add_edge edgeAB).2.vertices edgeAB.vertex1.value =
      some ((Vertex.new "A").add_edge edgeAB) ∧
    (undirA.add_edge edgeAB).2.edge_count = undirA.edge_count := by
  have h := add_edge_partial_mutation undirA edgeAB (Vertex.new "A") rfl rfl rfl
  exact ⟨rfl, h.1, h.2.1, h.2.2⟩

/-- Claim C4: when vertex1's key is absent, add_edge fails with the
missing-vertex error for vertex1 and returns the graph completely
unchanged. -/
theorem add_edge_missing_vertex1_unchanged (g : Graph) (e : Edge)
    (h1 : mapLookup g.vertices e.vertex1.value = none) :
    g.add_edge e =
      (Except.error ("Vertex " ++ e.vertex1.value ++ " does not exist"), g) := by
  simp only [Graph.add_edge, h1]

/-- Witness for C4: the empty directed graph with edge A-B. -/
theorem add_edge_missing_vertex1_unchanged_witness :
    mapLookup (Graph.new true).vertices edgeAB.vertex1.value = none ∧
    (Graph.new true).add_edge edgeAB =
      (Except.error ("Vertex " ++ edgeAB.vertex1.value ++ " does not exist"),
       Graph.new true) :=
  ⟨rfl, add_edge_missing_vertex1_unchanged (Graph.new true) edgeAB rfl⟩

/-! ### edge_count accounting (claim C5) -/

/-- One add_edge call changes edge_count by exactly its Ok count. -/
theorem add_edge_edge_count (g : Graph) (e : Edge) :
    (g.add_edge e).2.edge_count = g.edge_count + okNat (g.add_edge e).1 := by
  unfold Graph.add_edge
  cases h1 : mapLookup g.vertices e.vertex1.value with
  | none => simp [h1, okNat]
  | some v1 =>
    cases hd : g.directed with
    | true => simp [h1, hd, okNat]
    | false =>
      cases h2 : mapLookup (mapUpdate g.vertices e.vertex1.value (fun v => v.add_edge e))
          e.vertex2.value with
      | none => simp [h1, hd, h2, okNat]
      | some v2 => simp [h1, hd, h2, okNat]

/-- Along any run, edge_count grows by exactly the number of Ok calls. -/
theorem run_edge_count_general : ∀ (ops : List Op) (g : Graph),
    (runOps g ops).edge_count = g.edge_count + runOkCount g ops := by
  intro ops
  induction ops with
  | nil => intro g; simp [runOps, runOkCount]
  | cons op rest ih =>
    intro g
    cases op with
    | addVertex s =>
      simp only [runOps, runOkCount]
      rw [ih]
      rfl
    | addEdge e =>
      simp only [runOps, runOkCount]
      rw [ih, add_edge_edge_count]
      omega

/-- Claim C5: on a freshly constructed graph of either directedness,
edge_count after a run equals the number of Ok-returning add_edge calls,
and each Ok-returning call increments edge_count by exactly 1. -/
theorem edge_count_counts_ok_calls (d : Bool) (ops : List Op) (g : Graph) (e : Edge)
    (h : (g.add_edge e).1 = Except.ok ()) :
    (runOps (Graph.new d) ops).edge_count = runOkCount (Graph.new d) ops ∧
    (g.add_edge e).2.edge_count = g.edge_count + 1 := by
  constructor
  · rw [run_edge_count_general]
    simp [Graph.new]
  · rw [add_edge_edge_count, h]
    rfl

/-- Witness for C5: the main.rs five-cycle run and the single A-B call. -/
theorem edge_count_counts_ok_calls_witness :
    (runOps (Graph.new false) demoOps).edge_count = runOkCount (Graph.new false) demoOps ∧
    (pairBase.add_edge edgeAB5).2.edge_count = pairBase.edge_count + 1 :=
  edge_count_counts_ok_calls false demoOps pairBase edgeAB5 rfl

/-! ### add_vertex semantics (claim C9) -/

/-- Claim C9: add_vertex binds the vertex's value to the vertex itself,
silently replacing any previous binding of that key (making the old vertex
and the edges in its list unreachable from the map), and leaves every other
binding, the directed flag and edge_count unchanged. -/
theorem add_vertex_inserts (g : Graph) (v : Vertex) :
    mapLookup (g.add_vertex v).vertices v.value = some v ∧
    (∀ k, k ≠ v.value → mapLookup (g.add_vertex v).vertices k = mapLookup g.vertices k) ∧
    (g.add_vertex v).directed = g.directed ∧
    (g.add_vertex v).edge_count = g.edge_count :=
  ⟨mapLookup_insert_self _ _ _,
   fun k hk => mapLookup_insert_ne _ _ _ _ (fun h => hk h.symm),
   rfl, rfl⟩

/-- Witness for C9: overwriting A in the one-vertex graph with a vertex that
carries an edge, then reading A and the untouched key Z. -/
theorem add_vertex_inserts_witness :
    mapLookup (undirA.add_vertex (Vertex.mk "A" [edgeAB])).vertices "A" =
      some (Vertex.mk "A" [edgeAB]) ∧
    mapLookup (undirA.add_vertex (Vertex.mk "A" [edgeAB])).vertices "Z" =
      mapLookup undirA.vertices "Z" ∧
    (undirA.add_vertex (Vertex.mk "A" [edgeAB])).directed = undirA.directed ∧
    (undirA.add_vertex (Vertex.mk "A" [edgeAB])).edge_count = undirA.edge_count := by
  have h := add_vertex_inserts undirA (Vertex.mk "A" [edgeAB])
  exact ⟨h.1, h.2.1 "Z" (by decide), h.2.2.1, h.2.2.2⟩

/-! ### Empty-graph representations (claim C10) -/

/-- Claim C10: on the empty graph of either directedness,
csr_representation returns adjacents = [None] (just the sentinel) and
indices = [0], and both matrix builders return the zero-row matrix. -/
theorem empty_graph_representations :
    (Graph.new true).csr_representation = ([none], [0]) ∧
    (Graph.new false).csr_representation = ([none], [0]) ∧
    (Graph.new true).adjacency_matrix = some [] ∧
    (Graph.new false).adjacency_matrix = some [] ∧
    (Graph.new true).incidence_matrix = some [] ∧
    (Graph.new false).incidence_matrix = some [] :=
  ⟨rfl, rfl, rfl, rfl, rfl, rfl⟩

/-! ### CSR structure (claim C8) -/

/-- The inner CSR fold appends one neighbor entry per edge and bumps the
counter slot k+1 by the number of edges. -/
theorem csr_inner_foldl (vertex_key : String) (k : Nat) :
    ∀ (es : List Edge) (adj : List (Option String)) (idx : List Nat), k + 1 < idx.length →
    List.foldl (csrStep vertex_key k) (adj, idx) es =
      (adj ++ nbrEntries vertex_key es, idx.set (k + 1) (idx.getD (k + 1) 0 + es.length)) := by
  intro es
  induction es with
  | nil =>
    intro adj idx hp
    simp only [List.foldl_nil, nbrEntries, List.map_nil, List.append_nil, List.length_nil,
      Nat.add_zero]
    rw [set_getD_self idx (k + 1) 0 hp]
  | cons e rest ih =>
    intro adj idx hp
    simp only [List.foldl_cons, csrStep]
    rw [ih _ _ (by simpa using hp)]
    refine Prod.ext ?_ ?_
    · simp [nbrEntries]
    · simp only
      rw [getD_set_self idx (k + 1) _ 0 hp, List.set_set]
      congr 1
      simp only [List.length_cons]
      omega

/-- The CSR outer loop: starting with the counter prefix a (already final)
followed by zeroed slots, it appends all neighbor entries and writes each
vertex's degree into its counter slot. -/
theorem csrLoop_spec : ∀ (vs : List (String × Vertex)) (k : Nat)
    (adj : List (Option String)) (a : List Nat), a.length = k + 1 →
    csrLoop vs k adj (a ++ List.replicate vs.length 0) =
      (adj ++ flatNeighbors vs, a ++ degrees vs) := by
  intro vs
  induction vs with
  | nil =>
    intro k adj a ha
    simp [csrLoop, flatNeighbors, degrees]
  | cons kv rest ih =>
    intro k adj a ha
    obtain ⟨key, vx⟩ := kv
    simp only [csrLoop, List.length_cons, List.replicate_succ]
    have hp : k + 1 < (a ++ 0 :: List.replicate rest.length 0).length := by
      simp [List.length_append, ha]
    rw [csr_inner_foldl key k vx.edges adj _ hp]
    have hget : (a ++ 0 :: List.replicate rest.length 0).getD (k + 1) 0 = 0 := by
      rw [getD_append_right _ _ _ _ (by omega), ha]
      simp
    have hset : (a ++ 0 :: List.replicate rest.length 0).set (k + 1)
        (0 + vx.edges.length) = (a ++ [vx.edges.length]) ++ List.replicate rest.length 0 := by
      rw [set_append_right _ _ _ _ (by omega), ha]
      simp
    rw [hget, hset]
    rw [ih (k + 1) (adj ++ nbrEntries key vx.edges) (a ++ [vx.edges.length]) (by simp [ha])]
    refine Prod.ext ?_ ?_
    · simp [flatNeighbors, nbrEntries]
    · simp [degrees]

/-- The prefix-sum loop: with an already-summed block ending in s followed
by raw counts b, the loop rewrites b into running sums continuing from s. -/
theorem sumLoopAux_spec : ∀ (b a : List Nat) (s : Nat),
    sumLoopAux b.length ((a ++ [s]) ++ b) (a.length + 1) = (a ++ [s]) ++ accSums s b := by
  intro b
  induction b with
  | nil => intro a s; simp [sumLoopAux, accSums]
  | cons c cs ih =>
    intro a s
    simp only [List.length_cons, sumLoopAux]
    have hlen : (a ++ [s]).length = a.length + 1 := by simp
    have hget1 : ((a ++ [s]) ++ c :: cs).getD (a.length + 1) 0 = c := by
      rw [getD_append_right _ _ _ _ (by omega), hlen]
      simp
    have hget2 : ((a ++ [s]) ++ c :: cs).getD (a.length + 1 - 1) 0 = s := by
      rw [getD_append_left _ _ _ _ (by omega)]
      have : a.length + 1 - 1 = a.length := by omega
      rw [this, getD_append_right _ _ _ _ (by omega)]
      simp
    have hset : ((a ++ [s]) ++ c :: cs).set (a.length + 1) (c + s) =
        ((a ++ [s]) ++ [c + s]) ++ cs := by
      rw [set_append_right _ _ _ _ (by omega), hlen]
      simp
    rw [hget1, hget2, hset]
    have harg : a.length + 1 + 1 = (a ++ [s]).length + 1 := by simp
    rw [harg, ih (a ++ [s]) (c + s)]
    rw [Nat.add_comm c s]
    simp [accSums]

/-- csr_representation computed in closed form: the flattened neighbor
entries plus one trailing sentinel, and 0 followed by the running sums of
the per-vertex degrees. -/
theorem csr_representation_eq (g : Graph) :
    g.csr_representation =
      (flatNeighbors g.vertices ++ [none], 0 :: accSums 0 (degrees g.vertices)) := by
  simp only [Graph.csr_representation]
  have hrep : List.replicate (g.vertices.length + 1) 0 =
      [0] ++ List.replicate g.vertices.length 0 := by
    rw [List.replicate_succ]
    rfl
  rw [hrep, csrLoop_spec g.vertices 0 [] [0] rfl]
  simp only [List.nil_append, sumLoop]
  have hfuel : (([0] : List Nat) ++ degrees g.vertices).length - 1 =
      (degrees g.vertices).length := by
    simp
  rw [hfuel]
  have h2 := sumLoopAux_spec (degrees g.vertices) [] 0
  simp only [List.nil_append, List.length_nil, Nat.zero_add] at h2
  rw [h2]
  rfl

/-- accSums preserves length. -/
theorem accSums_length : ∀ (l : List Nat) (s : Nat), (accSums s l).length = l.length := by
  intro l
  induction l with
  | nil => intro s; rfl
  | cons c cs ih => intro s; simp [accSums, ih]

/-- The i-th running sum is s plus the sum of the first i+1 counts. -/
theorem accSums_getD : ∀ (l : List Nat) (s : Nat) (i : Nat), i < l.length →
    (accSums s l).getD i 0 = s + (l.take (i + 1)).sum := by
  intro l
  induction l with
  | nil => intro s i hi; simp at hi
  | cons c cs ih =>
    intro s i hi
    cases i with
    | zero => simp [accSums]
    | succ i2 =>
      simp only [accSums, List.getD_cons_succ, List.take_succ_cons, List.sum_cons]
      rw [ih (s + c) i2 (by simpa using hi)]
      omega

/-- Sum of a one-longer take: add the element at position i. -/
theorem sum_take_succ_getD (l : List Nat) (i : Nat) (hi : i < l.length) :
    (l.take (i + 1)).sum = (l.take i).sum + l.getD i 0 := by
  rw [List.take_succ, List.sum_append, List.getElem?_eq_getElem hi,
    List.getD_eq_getElem l 0 hi]
  simp

/-- flatNeighbors carries one entry per stored edge. -/
theorem flatNeighbors_length : ∀ (m : List (String × Vertex)),
    (flatNeighbors m).length = (degrees m).sum := by
  intro m
  induction m with
  | nil => rfl
  | cons p rest ih =>
    simp only [flatNeighbors, degrees, List.map_cons, List.flatten_cons, List.length_append,
      List.sum_cons] at *
    rw [ih]
    simp [nbrEntries]

/-- Every CSR neighbor entry is a Some. -/
theorem flatNeighbors_ne_none (m : List (String × Vertex)) :
    (none : Option String) ∉ flatNeighbors m := by
  intro h
  simp only [flatNeighbors, List.mem_flatten, List.mem_map] at h
  obtain ⟨l, ⟨p, hp, hl⟩, hmem⟩ := h
  subst hl
  simp [nbrEntries] at hmem

/-- The last entry of indices: the total degree sum. -/
theorem csr_indices_last (g : Graph) :
    (g.csr_representation).2.getD g.vertices.length 0 = (degrees g.vertices).sum := by
  rw [csr_representation_eq]
  cases hn : g.vertices.length with
  | zero =>
    have : degrees g.vertices = [] := by
      have := List.length_eq_zero.mp (by simpa [degrees] using hn)
      simp [degrees, this]
    simp [this]
  | succ n2 =>
    have hds : (degrees g.vertices).length = n2 + 1 := by simp [degrees, hn]
    simp only [List.getD_cons_succ]
    rw [accSums_getD _ 0 n2 (by omega)]
    rw [show n2 + 1 = (degrees g.vertices).length from hds.symm, List.take_length]
    omega

/-- Claim C8: csr_representation returns (adjacents, indices) with indices
of length vertex_count + 1, indices[0] = 0, consecutive differences equal
to each vertex's own edge-list length, indices[last] equal to the total of
those lengths, adjacents of length indices[last] + 1, and a single trailing
None sentinel as the final element. -/
theorem csr_shape_spec (g : Graph) :
    (g.csr_representation).2.length = g.vertices.length + 1 ∧
    (g.csr_representation).2.getD 0 0 = 0 ∧
    (∀ i, i < g.vertices.length →
      (g.csr_representation).2.getD (i + 1) 0 - (g.csr_representation).2.getD i 0 =
        (degrees g.vertices).getD i 0) ∧
    (g.csr_representation).2.getD g.vertices.length 0 = (degrees g.vertices).sum ∧
    (g.csr_representation).1.length = (g.csr_representation).2.getD g.vertices.length 0 + 1 ∧
    (g.csr_representation).1.getLast? = some none ∧
    (g.csr_representation).1.count none = 1 := by
  have hlen : (degrees g.vertices).length = g.vertices.length := by simp [degrees]
  refine ⟨?_, ?_, ?_, csr_indices_last g, ?_, ?_, ?_⟩
  · rw [csr_representation_eq]
    simp [accSums_length, hlen]
  · rw [csr_representation_eq]
    simp
  · intro i hi
    rw [csr_representation_eq]
    simp only [List.getD_cons_succ]
    rw [accSums_getD _ 0 i (by omega)]
    cases i with
    | zero =>
      simp only [List.getD_cons_zero, Nat.zero_add]
      rw [sum_take_succ_getD _ 0 (by omega)]
      simp
    | succ i2 =>
      simp only [List.getD_cons_succ]
      rw [accSums_getD _ 0 i2 (by omega)]
      rw [sum_take_succ_getD _ (i2 + 1) (by omega)]
      omega
  · rw [csr_indices_last g, csr_representation_eq]
    simp [flatNeighbors_length]
  · rw [csr_representation_eq]
    simp [List.getLast?_concat]
  · rw [csr_representation_eq]
    simp only [List.count_append]
    have h0 : (flatNeighbors g.vertices).count none = 0 :=
      List.count_eq_zero.mpr (flatNeighbors_ne_none g.vertices)
    rw [h0]
    rfl

/-- Witness for C8 at the main.rs five-cycle graph. -/
theorem csr_shape_spec_witness :
    (demoGraph.csr_representation).2.length = demoGraph.vertices.length + 1 ∧
    (demoGraph.csr_representation).2.getD 1 0 - (demoGraph.csr_representation).2.getD 0 0 =
      (degrees demoGraph.vertices).getD 0 0 ∧
    (demoGraph.csr_representation).1.getLast? = some none := by
  have h := csr_shape_spec demoGraph
  exact ⟨h.1, h.2.2.1 0 (by decide), h.2.2.2.2.2.1⟩

/-! ### The well-formedness invariant and totality (claim C2) -/

/-- Inserting a binding never removes a key. -/
theorem mapInsert_isSome_mono (m : List (String × Vertex)) (k k2 : String) (v : Vertex)
    (h : (mapLookup m k2).isSome = true) :
    (mapLookup (mapInsert m k v) k2).isSome = true := by
  by_cases hk : k = k2
  · subst hk
    rw [mapLookup_insert_self]
    rfl
  · rw [mapLookup_insert_ne _ _ _ _ hk]
    exact h

/-- Registering a freshly built vertex preserves the invariant. -/
theorem wfv_insert_fresh (m : List (String × Vertex)) (s : String) (hwf : WFv m) :
    WFv (mapInsert m s (Vertex.new s)) := by
  intro p hp e he
  rcases mem_mapInsert m s _ p hp with h | h
  · subst h
    cases he
  · have h2 := hwf p h e he
    exact ⟨mapInsert_isSome_mono m s _ _ h2.1, mapInsert_isSome_mono m s _ _ h2.2⟩

/-- Appending an edge whose endpoint keys are present preserves the
invariant, at whichever vertex the edge is appended. -/
theorem wfv_update_add_edge (m : List (String × Vertex)) (k : String) (e : Edge)
    (hwf : WFv m)
    (h1 : (mapLookup m e.vertex1.value).isSome = true)
    (h2 : (mapLookup m e.vertex2.value).isSome = true) :
    WFv (mapUpdate m k (fun v => v.add_edge e)) := by
  intro p hp e2 he2
  have hpres : ∀ k2, (mapLookup (mapUpdate m k (fun v => v.add_edge e)) k2).isSome =
      (mapLookup m k2).isSome := fun k2 => mapUpdate_isSome m k k2 _
  rcases mem_mapUpdate m k _ p hp with h | ⟨w, hw, hpw⟩
  · have h3 := hwf p h e2 he2
    exact ⟨by rw [hpres]; exact h3.1, by rw [hpres]; exact h3.2⟩
  · subst hpw
    simp only [Vertex.add_edge, Vertex.edges_mk] at he2
    rcases List.mem_append.mp he2 with h3 | h3
    · have h4 := hwf (k, w) hw e2 h3
      exact ⟨by rw [hpres]; exact h4.1, by rw [hpres]; exact h4.2⟩
    · have h4 : e2 = e := by simpa using h3
      subst h4
      exact ⟨by rw [hpres]; exact h1, by rw [hpres]; exact h2⟩

/-- add_edge preserves the invariant when both endpoint keys are present
at call time. -/
theorem add_edge_preserves_WF (g : Graph) (e : Edge) (hwf : g.WF)
    (h1 : (mapLookup g.vertices e.vertex1.value).isSome = true)
    (h2 : (mapLookup g.vertices e.vertex2.value).isSome = true) :
    ((g.add_edge e).2).WF := by
  obtain ⟨v1, hv1⟩ := Option.isSome_iff_exists.mp h1
  cases hd : g.directed with
  | true =>
    simp only [Graph.add_edge, hv1, hd, if_true]
    exact wfv_update_add_edge _ _ _ hwf h1 h2
  | false =>
    have h2b : (mapLookup (mapUpdate g.vertices e.vertex1.value (fun v => v.add_edge e))
        e.vertex2.value).isSome = true := by
      rw [mapUpdate_isSome]
      exact h2
    obtain ⟨v2, hv2⟩ := Option.isSome_iff_exists.mp h2b
    simp only [Graph.add_edge, hv1, hd, Bool.false_eq_true, if_false, hv2]
    exact wfv_update_add_edge _ _ _
      (wfv_update_add_edge _ _ _ hwf h1 h2)
      (by rw [mapUpdate_isSome]; exact h1) h2b

/-- A safe run from a well-formed state ends well-formed. -/
theorem safeRun_WF : ∀ (ops : List Op) (g : Graph), g.WF → SafeRun g ops = true →
    (runOps g ops).WF := by
  intro ops
  induction ops with
  | nil =>
    intro g hwf _
    simpa [runOps] using hwf
  | cons op rest ih =>
    intro g hwf hsafe
    cases op with
    | addVertex s =>
      simp only [runOps]
      refine ih _ ?_ (by simpa [SafeRun] using hsafe)
      exact wfv_insert_fresh g.vertices s hwf
    | addEdge e =>
      simp only [SafeRun, Bool.and_eq_true] at hsafe
      obtain ⟨⟨h1, h2⟩, hrest⟩ := hsafe
      exact ih _ (add_edge_preserves_WF g e hwf h1 h2) hrest

/-- On a well-formed graph, every stored edge's endpoint keys resolve in
the index map. -/
theorem WF_allEdges_keys (g : Graph) (hwf : g.WF) :
    ∀ e ∈ g.allEdges,
      (keyIndex (g.vertices.map Prod.fst) e.vertex1.value).isSome = true ∧
      (keyIndex (g.vertices.map Prod.fst) e.vertex2.value).isSome = true := by
  intro e he
  simp only [Graph.allEdges, List.mem_flatten, List.mem_map] at he
  obtain ⟨l, ⟨p, hp, hl⟩, hmem⟩ := he
  subst hl
  have h2 := hwf p hp e hmem
  rw [keyIndex_isSome, keyIndex_isSome]
  exact h2

/-- The adjacency fold succeeds when every edge's endpoint keys resolve. -/
theorem adjFold_isSome (keys : List String) (d : Bool) :
    ∀ (es : List Edge) (m : List (List (Option Int))),
    (∀ e ∈ es, (keyIndex keys e.vertex1.value).isSome = true ∧
      (keyIndex keys e.vertex2.value).isSome = true) →
    (adjFold keys d es m).isSome = true := by
  intro es
  induction es with
  | nil => intro m _; rfl
  | cons e rest ih =>
    intro m h
    have he := h e (List.mem_cons_self e rest)
    obtain ⟨i, hi⟩ := Option.isSome_iff_exists.mp he.1
    obtain ⟨j, hj⟩ := Option.isSome_iff_exists.mp he.2
    simp only [adjFold, hi, hj]
    exact ih _ (fun e2 he2 => h e2 (List.mem_cons_of_mem _ he2))

/-- adjacency_matrix succeeds on well-formed graphs. -/
theorem adjacency_isSome (g : Graph) (hwf : g.WF) :
    (g.adjacency_matrix).isSome = true := by
  simp only [Graph.adjacency_matrix]
  exact adjFold_isSome _ _ _ _ (WF_allEdges_keys g hwf)

/-- Every triple the deduplication scan emits comes from the accumulator or
from a scanned edge. -/
theorem scanEdges_sub : ∀ (es : List Edge) (seen : List (String × String))
    (acc : List (String × String × Int)) (t : String × String × Int),
    t ∈ scanEdges es seen acc → t ∈ acc ∨
      ∃ e ∈ es, t = (e.vertex1.value, e.vertex2.value, e.weight) := by
  intro es
  induction es with
  | nil =>
    intro seen acc t ht
    exact Or.inl (by simpa [scanEdges] using ht)
  | cons e rest ih =>
    intro seen acc t ht
    simp only [scanEdges] at ht
    split at ht
    · rcases ih _ _ _ ht with h | ⟨e2, he2, hte⟩
      · exact Or.inl h
      · exact Or.inr ⟨e2, List.mem_cons_of_mem _ he2, hte⟩
    · rcases ih _ _ _ ht with h | ⟨e2, he2, hte⟩
      · rcases List.mem_append.mp h with h2 | h2
        · exact Or.inl h2
        · exact Or.inr ⟨e, List.mem_cons_self _ _, by simpa using h2⟩
      · exact Or.inr ⟨e2, List.mem_cons_of_mem _ he2, hte⟩

/-- The incidence fold succeeds when every triple's keys resolve. -/
theorem incFold_isSome (keys : List String) (d : Bool) :
    ∀ (ts : List (String × String × Int)) (eidx : Nat) (m : List (List Int)),
    (∀ t ∈ ts, (keyIndex keys t.1).isSome = true ∧ (keyIndex keys t.2.1).isSome = true) →
    (incFold keys d ts eidx m).isSome = true := by
  intro ts
  induction ts with
  | nil => intro eidx m _; rfl
  | cons t rest ih =>
    intro eidx m h
    obtain ⟨v1, v2, w⟩ := t
    have ht := h _ (List.mem_cons_self _ _)
    obtain ⟨i, hi⟩ := Option.isSome_iff_exists.mp ht.1
    obtain ⟨j, hj⟩ := Option.isSome_iff_exists.mp ht.2
    simp only [incFold, hi, hj]
    exact ih _ _ (fun t2 ht2 => h t2 (List.mem_cons_of_mem _ ht2))

/-- incidence_matrix succeeds on well-formed graphs. -/
theorem incidence_isSome (g : Graph) (hwf : g.WF) :
    (g.incidence_matrix).isSome = true := by
  simp only [Graph.incidence_matrix]
  refine incFold_isSome _ _ _ _ _ (fun t ht => ?_)
  rcases scanEdges_sub g.allEdges [] [] t ht with h | ⟨e, he, hte⟩
  · cases h
  · subst hte
    exact WF_allEdges_keys g hwf e he

/-- Claim C2 (amended): after any run of new, add_vertex and add_edge in
which both endpoint keys were present in the vertex map at each add_edge
call, every stored edge references present vertices and both matrix
builders' index-map lookups all succeed (no panic branch is reached). -/
theorem safe_reachable_WF_total (d : Bool) (ops : List Op)
    (h : SafeRun (Graph.new d) ops = true) :
    (runOps (Graph.new d) ops).WF ∧
    ((runOps (Graph.new d) ops).adjacency_matrix).isSome = true ∧
    ((runOps (Graph.new d) ops).incidence_matrix).isSome = true := by
  have hwf0 : (Graph.new d).WF := by
    intro p hp e he
    cases hp
  have hwf := safeRun_WF ops (Graph.new d) hwf0 h
  exact ⟨hwf, adjacency_isSome _ hwf, incidence_isSome _ hwf⟩

/-- Witness for amended C2: the main.rs five-cycle run is safe. -/
theorem safe_reachable_WF_total_witness :
    (runOps (Graph.new false) demoOps).WF ∧
    ((runOps (Graph.new false) demoOps).adjacency_matrix).isSome = true ∧
    ((runOps (Graph.new false) demoOps).incidence_matrix).isSome = true :=
  safe_reachable_WF_total false demoOps (by decide)

/-- Counterexample to C2 as stated: the state reached by new(false),
add_vertex(A), add_edge(A-B) — reachable through the listed operations —
stores on A an edge whose vertex2 key B is absent, and both matrix
builders hit their panic branch (modeled as none) on it. -/
theorem reachable_state_breaks_invariant :
    danglingState.adjacency_matrix = none ∧
    danglingState.incidence_matrix = none ∧
    mapLookup danglingState.vertices "A" = some (Vertex.mk "A" [edgeAB]) ∧
    mapLookup danglingState.vertices "B" = none :=
  ⟨rfl, rfl, rfl, rfl⟩

/-! ### Matrix cell lemmas -/

theorem shape_replicate {α : Type} (n cols : Nat) (d : α) :
    Shape (List.replicate n (List.replicate cols d)) n cols := by
  refine ⟨by simp, fun row hrow => ?_⟩
  rw [List.eq_of_mem_replicate hrow]
  simp

theorem shape_matSet {α : Type} (m : List (List α)) (n cols i j : Nat) (x : α)
    (hs : Shape m n cols) : Shape (matSet m i j x) n cols := by
  obtain ⟨hlen, hrows⟩ := hs
  by_cases hi : i < m.length
  · refine ⟨by simpa [matSet] using hlen, fun row hrow => ?_⟩
    rcases List.mem_or_eq_of_mem_set hrow with h | h
    · exact hrows row h
    · subst h
      rw [List.length_set, List.getD_eq_getElem m [] hi]
      exact hrows _ (List.getElem_mem hi)
  · rw [matSet, List.set_eq_of_length_le (by omega)]
    exact ⟨hlen, hrows⟩

theorem matGet_replicate {α : Type} (n cols a b : Nat) (d : α) :
    matGet (List.replicate n (List.replicate cols d)) a b d = d := by
  unfold matGet
  rw [getD_replicate]
  split
  · rw [getD_replicate]
    split <;> rfl
  · rfl

theorem matGet_matSet_self {α : Type} (m : List (List α)) (n cols i j : Nat) (x d : α)
    (hs : Shape m n cols) (hi : i < n) (hj : j < cols) :
    matGet (matSet m i j x) i j d = x := by
  obtain ⟨hlen, hrows⟩ := hs
  have hilen : i < m.length := by omega
  unfold matGet matSet
  rw [getD_set_self m i _ [] hilen]
  rw [List.getD_eq_getElem m [] hilen]
  exact getD_set_self _ j x d (by rw [hrows _ (List.getElem_mem hilen)]; omega)

theorem matGet_matSet_ne {α : Type} (m : List (List α)) (i j a b : Nat) (x d : α)
    (hne : a ≠ i ∨ b ≠ j) :
    matGet (matSet m i j x) a b d = matGet m a b d := by
  unfold matGet matSet
  rcases hne with h | h
  · rw [getD_set_ne m _ [] (fun hh => h hh.symm)]
  · by_cases hia : i = a
    · subst hia
      by_cases hlen : i < m.length
      · rw [getD_set_self m i _ [] hlen]
        exact getD_set_ne _ x d (fun hh => h hh.symm)
      · rw [List.set_eq_of_length_le (by omega)]
    · rw [getD_set_ne m _ [] hia]

/-! ### Adjacency matrix cells for undirected graphs (claim C6) -/

/-- Reading any cell after the symmetric pair of writes one undirected
adjacency step performs. -/
theorem adjWrite_get (m : List (List (Option Int))) (n : Nat) (hs : Shape m n n)
    (i2 j2 : Nat) (hi2 : i2 < n) (hj2 : j2 < n) (w2 : Int) (a b : Nat) :
    matGet (matSet (matSet m i2 j2 (some w2)) j2 i2 (some w2)) a b none =
      if (a = j2 ∧ b = i2) ∨ (a = i2 ∧ b = j2) then some w2
      else matGet m a b none := by
  by_cases h1 : a = j2 ∧ b = i2
  · obtain ⟨ha, hb⟩ := h1
    subst ha
    subst hb
    rw [if_pos (Or.inl ⟨rfl, rfl⟩)]
    exact matGet_matSet_self _ n n _ _ _ _ (shape_matSet _ n n _ _ _ hs) hj2 hi2
  · by_cases h2 : a = i2 ∧ b = j2
    · obtain ⟨ha, hb⟩ := h2
      subst ha
      subst hb
      rw [if_pos (Or.inr ⟨rfl, rfl⟩)]
      have hij : a ≠ b := fun hh => h1 ⟨hh, hh.symm⟩
      rw [matGet_matSet_ne _ b a a b _ _ (Or.inl hij)]
      exact matGet_matSet_self _ n n _ _ _ _ hs hi2 hj2
    · rw [if_neg (fun hc => hc.elim h1 h2)]
      rw [matGet_matSet_ne _ j2 i2 a b _ _ (by tauto)]
      exact matGet_matSet_ne _ i2 j2 a b _ _ (by tauto)

/-- One undirected adjacency step, in explicit form. -/
theorem adjFold_cons (keys : List String) (e : Edge) (rest : List Edge)
    (m : List (List (Option Int))) (i2 j2 : Nat)
    (hki : keyIndex keys e.vertex1.value = some i2)
    (hkj : keyIndex keys e.vertex2.value = some j2) :
    adjFold keys false (e :: rest) m =
      adjFold keys false rest
        (matSet (matSet m i2 j2 (some e.weight)) j2 i2 (some e.weight)) := by
  simp [adjFold, hki, hkj]

/-- A successful undirected adjacency fold keeps the matrix symmetric. -/
theorem adjFold_symm (keys : List String) (n : Nat) (hkeys : keys.length = n) :
    ∀ (es : List Edge) (m M : List (List (Option Int))),
    adjFold keys false es m = some M → Shape m n n →
    (∀ a b, matGet m a b none = matGet m b a none) →
    ∀ a b, matGet M a b none = matGet M b a none := by
  intro es
  induction es with
  | nil =>
    intro m M hfold hs hsym
    simp only [adjFold, Option.some.injEq] at hfold
    subst hfold
    exact hsym
  | cons e rest ih =>
    intro m M hfold hs hsym
    cases hki : keyIndex keys e.vertex1.value with
    | none => simp [adjFold, hki] at hfold
    | some i2 =>
      cases hkj : keyIndex keys e.vertex2.value with
      | none => simp [adjFold, hki, hkj] at hfold
      | some j2 =>
        rw [adjFold_cons keys e rest m i2 j2 hki hkj] at hfold
        have hi2 : i2 < n := by have := keyIndex_lt _ _ _ hki; omega
        have hj2 : j2 < n := by have := keyIndex_lt _ _ _ hkj; omega
        refine ih _ M hfold (shape_matSet _ n n _ _ _ (shape_matSet _ n n _ _ _ hs)) ?_
        intro a b
        rw [adjWrite_get m n hs i2 j2 hi2 hj2 e.weight a b,
          adjWrite_get m n hs i2 j2 hi2 hj2 e.weight b a]
        by_cases hc : (a = j2 ∧ b = i2) ∨ (a = i2 ∧ b = j2)
        · rw [if_pos hc, if_pos (by tauto)]
        · rw [if_neg hc, if_neg (by tauto)]
          exact hsym a b

/-- Once the pair of cells (i,j),(j,i) holds some w, any later undirected
steps whose pair-matching edges all weigh w keep it there. -/
theorem adjFold_preserve (keys : List String) (n : Nat) (hkeys : keys.length = n)
    (i j : Nat) (w : Int) :
    ∀ (es : List Edge) (m M : List (List (Option Int))),
    adjFold keys false es m = some M → Shape m n n →
    (∀ e2 ∈ es, ∀ i2 j2, keyIndex keys e2.vertex1.value = some i2 →
      keyIndex keys e2.vertex2.value = some j2 →
      ((i2 = i ∧ j2 = j) ∨ (i2 = j ∧ j2 = i)) → e2.weight = w) →
    matGet m i j none = some w → matGet m j i none = some w →
    matGet M i j none = some w ∧ matGet M j i none = some w := by
  intro es
  induction es with
  | nil =>
    intro m M hfold hs hcons hij hji
    simp only [adjFold, Option.some.injEq] at hfold
    subst hfold
    exact ⟨hij, hji⟩
  | cons e rest ih =>
    intro m M hfold hs hcons hij hji
    cases hki : keyIndex keys e.vertex1.value with
    | none => simp [adjFold, hki] at hfold
    | some i2 =>
      cases hkj : keyIndex keys e.vertex2.value with
      | none => simp [adjFold, hki, hkj] at hfold
      | some j2 =>
        rw [adjFold_cons keys e rest m i2 j2 hki hkj] at hfold
        have hi2 : i2 < n := by have := keyIndex_lt _ _ _ hki; omega
        have hj2 : j2 < n := by have := keyIndex_lt _ _ _ hkj; omega
        refine ih _ M hfold (shape_matSet _ n n _ _ _ (shape_matSet _ n n _ _ _ hs))
          (fun e2 he2 => hcons e2 (List.mem_cons_of_mem _ he2)) ?_ ?_
        · rw [adjWrite_get m n hs i2 j2 hi2 hj2 e.weight i j]
          by_cases hc : (i = j2 ∧ j = i2) ∨ (i = i2 ∧ j = j2)
          · rw [if_pos hc,
              hcons e (List.mem_cons_self _ _) i2 j2 hki hkj (by tauto)]
          · rw [if_neg hc]
            exact hij
        · rw [adjWrite_get m n hs i2 j2 hi2 hj2 e.weight j i]
          by_cases hc : (j = j2 ∧ i = i2) ∨ (j = i2 ∧ i = j2)
          · rw [if_pos hc,
              hcons e (List.mem_cons_self _ _) i2 j2 hki hkj (by tauto)]
          · rw [if_neg hc]
            exact hji

/-- Every scanned edge whose pair-matching companions share its weight ends
with both of its symmetric cells holding that weight. -/
theorem adjFold_sets (keys : List String) (n : Nat) (hkeys : keys.length = n)
    (i j : Nat) (w : Int) :
    ∀ (es : List Edge) (m M : List (List (Option Int))),
    adjFold keys false es m = some M → Shape m n n →
    (∀ e2 ∈ es, ∀ i2 j2, keyIndex keys e2.vertex1.value = some i2 →
      keyIndex keys e2.vertex2.value = some j2 →
      ((i2 = i ∧ j2 = j) ∨ (i2 = j ∧ j2 = i)) → e2.weight = w) →
    ∀ e ∈ es, keyIndex keys e.vertex1.value = some i →
      keyIndex keys e.vertex2.value = some j → e.weight = w →
    matGet M i j none = some w ∧ matGet M j i none = some w := by
  intro es
  induction es with
  | nil =>
    intro m M _ _ _ e he
    cases he
  | cons e2 rest ih =>
    intro m M hfold hs hcons e he hki hkj hw
    rcases List.mem_cons.mp he with heq | hmem
    · subst heq
      rw [adjFold_cons keys e rest m i j hki hkj] at hfold
      have hi : i < n := by have := keyIndex_lt _ _ _ hki; omega
      have hj : j < n := by have := keyIndex_lt _ _ _ hkj; omega
      refine adjFold_preserve keys n hkeys i j w rest _ M hfold
        (shape_matSet _ n n _ _ _ (shape_matSet _ n n _ _ _ hs))
        (fun e3 he3 => hcons e3 (List.mem_cons_of_mem _ he3)) ?_ ?_
      · rw [adjWrite_get m n hs i j hi hj e.weight i j, if_pos (Or.inr ⟨rfl, rfl⟩), hw]
      · rw [adjWrite_get m n hs i j hi hj e.weight j i, if_pos (Or.inl ⟨rfl, rfl⟩), hw]
    · cases hki2 : keyIndex keys e2.vertex1.value with
      | none => simp [adjFold, hki2] at hfold
      | some i2 =>
        cases hkj2 : keyIndex keys e2.vertex2.value with
        | none => simp [adjFold, hki2, hkj2] at hfold
        | some j2 =>
          rw [adjFold_cons keys e2 rest m i2 j2 hki2 hkj2] at hfold
          exact ih _ M hfold
            (shape_matSet _ n n _ _ _ (shape_matSet _ n n _ _ _ hs))
            (fun e3 he3 => hcons e3 (List.mem_cons_of_mem _ he3)) e hmem hki hkj hw

/-- Claim C6 (amended): in an undirected graph whose stored edges on any one
unordered endpoint pair all share one weight, every stored edge (v1,v2,w)
has M[index v1][index v2] = M[index v2][index v1] = Some w in the returned
adjacency matrix, and the whole matrix is symmetric. -/
theorem adjacency_undirected_edge_cells (g : Graph) (M : List (List (Option Int)))
    (hund : g.directed = false)
    (hM : g.adjacency_matrix = some M)
    (e : Edge) (he : e ∈ g.allEdges)
    (hcons : ∀ e2 ∈ g.allEdges,
      (e2.vertex1.value = e.vertex1.value ∧ e2.vertex2.value = e.vertex2.value) ∨
      (e2.vertex1.value = e.vertex2.value ∧ e2.vertex2.value = e.vertex1.value) →
      e2.weight = e.weight)
    (i j : Nat)
    (hi : keyIndex (g.vertices.map Prod.fst) e.vertex1.value = some i)
    (hj : keyIndex (g.vertices.map Prod.fst) e.vertex2.value = some j) :
    matGet M i j none = some e.weight ∧ matGet M j i none = some e.weight ∧
    ∀ a b, matGet M a b none = matGet M b a none := by
  have hkeys : (g.vertices.map Prod.fst).length = g.vertices.length := by simp
  simp only [Graph.adjacency_matrix, hund] at hM
  have hcons2 : ∀ e2 ∈ g.allEdges, ∀ i2 j2,
      keyIndex (g.vertices.map Prod.fst) e2.vertex1.value = some i2 →
      keyIndex (g.vertices.map Prod.fst) e2.vertex2.value = some j2 →
      ((i2 = i ∧ j2 = j) ∨ (i2 = j ∧ j2 = i)) → e2.weight = e.weight := by
    intro e2 he2 i2 j2 h1 h2 hd2
    apply hcons e2 he2
    have g1 := keyIndex_getD _ _ _ h1
    have g2 := keyIndex_getD _ _ _ h2
    have gi := keyIndex_getD _ _ _ hi
    have gj := keyIndex_getD _ _ _ hj
    rcases hd2 with ⟨hii, hjj⟩ | ⟨hij2, hji2⟩
    · exact Or.inl ⟨by rw [← g1, hii, gi], by rw [← g2, hjj, gj]⟩
    · exact Or.inr ⟨by rw [← g1, hij2, gj], by rw [← g2, hji2, gi]⟩
  obtain ⟨c1, c2⟩ := adjFold_sets (g.vertices.map Prod.fst) g.vertices.length hkeys i j
    e.weight g.allEdges _ M hM
    (shape_replicate g.vertices.length g.vertices.length none) hcons2 e he hi hj rfl
  refine ⟨c1, c2, ?_⟩
  refine adjFold_symm (g.vertices.map Prod.fst) g.vertices.length hkeys g.allEdges _ M hM
    (shape_replicate g.vertices.length g.vertices.length none) ?_
  intro a b
  rw [matGet_replicate, matGet_replicate]

/-- Witness for amended C6: the undirected A-B graph of weight 5. -/
theorem adjacency_undirected_edge_cells_witness :
    matGet ([[none, some 5], [some 5, none]] : List (List (Option Int))) 0 1 none =
      some edgeAB5.weight ∧
    matGet ([[none, some 5], [some 5, none]] : List (List (Option Int))) 1 0 none =
      some edgeAB5.weight ∧
    ∀ a b, matGet ([[none, some 5], [some 5, none]] : List (List (Option Int))) a b none =
      matGet ([[none, some 5], [some 5, none]] : List (List (Option Int))) b a none := by
  refine adjacency_undirected_edge_cells pairGraph [[none, some 5], [some 5, none]]
    rfl rfl edgeAB5 ?_ ?_ 0 1 rfl rfl
  · rw [show pairGraph.allEdges = [edgeAB5, edgeAB5] from rfl]
    exact List.mem_cons_self _ _
  · intro e2 he2 _
    rw [show pairGraph.allEdges = [edgeAB5, edgeAB5] from rfl] at he2
    rcases List.mem_cons.mp he2 with h | h
    · rw [h]
    · rw [List.mem_singleton.mp h]

/-- Counterexample to C6 as stated: with two parallel A-B edges of weights
1 and 2, the stored weight-1 edge does not appear in its adjacency cell
(the later write with weight 2 overwrote it). -/
theorem parallel_edges_break_adjacency_claim :
    parallelGraph.directed = false ∧
    parallelGraph.adjacency_matrix = some [[none, some 2], [some 2, none]] ∧
    Edge.new (Vertex.new "A") (Vertex.new "B") 1 ∈ parallelGraph.allEdges ∧
    keyIndex (parallelGraph.vertices.map Prod.fst)
      (Edge.new (Vertex.new "A") (Vertex.new "B") 1).vertex1.value = some 0 ∧
    keyIndex (parallelGraph.vertices.map Prod.fst)
      (Edge.new (Vertex.new "A") (Vertex.new "B") 1).vertex2.value = some 1 ∧
    ¬ matGet [[none, some 2], [some 2, none]] 0 1 none =
      some (Edge.new (Vertex.new "A") (Vertex.new "B") 1).weight := by
  refine ⟨rfl, rfl, ?_, rfl, rfl, by decide⟩
  rw [show parallelGraph.allEdges =
    [Edge.new (Vertex.new "A") (Vertex.new "B") 1,
     Edge.new (Vertex.new "A") (Vertex.new "B") 2,
     Edge.new (Vertex.new "A") (Vertex.new "B") 1,
     Edge.new (Vertex.new "A") (Vertex.new "B") 2] from rfl]
  exact List.mem_cons_self _ _

/-! ### Incidence matrix columns (claim C7) -/

/-- One incidence step, in explicit form: the destination write carries -w
when directed and w when undirected. -/
theorem incFold_cons (keys : List String) (d : Bool) (v1 v2 : String) (w : Int)
    (rest : List (String × String × Int)) (eidx : Nat) (m : List (List Int))
    (i2 j2 : Nat) (hki : keyIndex keys v1 = some i2) (hkj : keyIndex keys v2 = some j2) :
    incFold keys d ((v1, v2, w) :: rest) eidx m =
      incFold keys d rest (eidx + 1)
        (matSet (matSet m i2 eidx w) j2 eidx (if d then -w else w)) := by
  simp [incFold, hki, hkj, apply_ite (matSet (matSet m i2 eidx w) j2 eidx)]

/-- Columns strictly before the running edge index are never touched
again. -/
theorem incFold_past (keys : List String) (d : Bool) :
    ∀ (ts : List (String × String × Int)) (eidx : Nat) (m M : List (List Int)),
    incFold keys d ts eidx m = some M →
    ∀ c r, c < eidx → matGet M r c 0 = matGet m r c 0 := by
  intro ts
  induction ts with
  | nil =>
    intro eidx m M hfold c r _
    simp only [incFold, Option.some.injEq] at hfold
    subst hfold
    rfl
  | cons u rest ih =>
    intro eidx m M hfold c r hc
    obtain ⟨u1, u2, uw⟩ := u
    cases hku1 : keyIndex keys u1 with
    | none => simp [incFold, hku1] at hfold
    | some i2 =>
      cases hku2 : keyIndex keys u2 with
      | none => simp [incFold, hku1, hku2] at hfold
      | some j2 =>
        rw [incFold_cons keys d u1 u2 uw rest eidx m i2 j2 hku1 hku2] at hfold
        rw [ih _ _ M hfold c r (by omega)]
        rw [matGet_matSet_ne _ j2 eidx r c _ _ (Or.inr (by omega))]
        exact matGet_matSet_ne _ i2 eidx r c _ _ (Or.inr (by omega))

/-- The column of the t-th pending edge, in the finished matrix: +w at the
source row, -w (directed) or w (undirected) at the destination row, 0 in
every other row. -/
theorem incFold_col (keys : List String) (d : Bool) (n cols : Nat) (hkeys : keys.length = n) :
    ∀ (ts : List (String × String × Int)) (t eidx : Nat) (m M : List (List Int))
      (v1 v2 : String) (w : Int) (i j : Nat),
    incFold keys d ts eidx m = some M → Shape m n cols →
    ts[t]? = some (v1, v2, w) →
    keyIndex keys v1 = some i → keyIndex keys v2 = some j →
    eidx + t < cols → i ≠ j →
    (∀ r, matGet m r (eidx + t) 0 = 0) →
    matGet M i (eidx + t) 0 = w ∧
    matGet M j (eidx + t) 0 = (if d then -w else w) ∧
    (∀ r, r ≠ i → r ≠ j → matGet M r (eidx + t) 0 = 0) := by
  intro ts
  induction ts with
  | nil =>
    intro t eidx m M v1 v2 w i j _ _ hget
    simp at hget
  | cons u rest ih =>
    intro t eidx m M v1 v2 w i j hfold hs hget hki hkj hcol hij hzero
    obtain ⟨u1, u2, uw⟩ := u
    cases hku1 : keyIndex keys u1 with
    | none => simp [incFold, hku1] at hfold
    | some i2 =>
      cases hku2 : keyIndex keys u2 with
      | none => simp [incFold, hku1, hku2] at hfold
      | some j2 =>
        rw [incFold_cons keys d u1 u2 uw rest eidx m i2 j2 hku1 hku2] at hfold
        cases t with
        | zero =>
          simp only [List.getElem?_cons_zero, Option.some.injEq, Prod.mk.injEq] at hget
          obtain ⟨hu1, hu2, huw⟩ := hget
          rw [hu1] at hku1
          rw [hu2] at hku2
          rw [huw] at hfold
          rw [hki] at hku1
          injection hku1 with hii
          rw [hkj] at hku2
          injection hku2 with hjj
          subst hii
          subst hjj
          simp only [Nat.add_zero] at hcol hzero ⊢
          have hi2 : i < n := by have := keyIndex_lt _ _ _ hki; omega
          have hj2 : j < n := by have := keyIndex_lt _ _ _ hkj; omega
          have hpast := incFold_past keys d rest (eidx + 1) _ M hfold
          have hc1 : matGet M i eidx 0 = w := by
            rw [hpast eidx i (by omega)]
            rw [matGet_matSet_ne _ j eidx i eidx _ _ (Or.inl hij)]
            exact matGet_matSet_self _ n cols _ _ _ _ hs hi2 (by omega)
          have hc2 : matGet M j eidx 0 = (if d then -w else w) := by
            rw [hpast eidx j (by omega)]
            exact matGet_matSet_self _ n cols _ _ _ _
              (shape_matSet _ n cols _ _ _ hs) hj2 (by omega)
          refine ⟨hc1, hc2, fun r hri hrj => ?_⟩
          rw [hpast eidx r (by omega)]
          rw [matGet_matSet_ne _ j eidx r eidx _ _ (Or.inl hrj)]
          rw [matGet_matSet_ne _ i eidx r eidx _ _ (Or.inl hri)]
          exact hzero r
        | succ t2 =>
          simp only [List.getElem?_cons_succ] at hget
          have harr : eidx + (t2 + 1) = eidx + 1 + t2 := by omega
          have hzero2 : ∀ r, matGet (matSet (matSet m i2 eidx uw) j2 eidx
              (if d then -uw else uw)) r (eidx + 1 + t2) 0 = 0 := by
            intro r
            rw [matGet_matSet_ne _ j2 eidx r _ _ _ (Or.inr (by omega))]
            rw [matGet_matSet_ne _ i2 eidx r _ _ _ (Or.inr (by omega))]
            rw [← harr]
            exact hzero r
          have hres := ih t2 (eidx + 1) _ M v1 v2 w i j hfold
            (shape_matSet _ n cols _ _ _ (shape_matSet _ n cols _ _ _ hs)) hget hki hkj
            (by omega) hij hzero2
          rw [harr]
          exact hres

/-- Claim C7 (amended): for every edge column whose edge has distinct
endpoint keys and nonzero weight, the incidence matrix column holds exactly
two nonzero entries: +w at the source row and, at the destination row, -w
when directed (so the column sums to zero) and +w when undirected; every
other row of the column is 0. -/
theorem incidence_column_two_nonzero (g : Graph) (M : List (List Int))
    (hM : g.incidence_matrix = some M)
    (c : Nat) (v1 v2 : String) (w : Int)
    (hc : (scanEdges g.allEdges [] [])[c]? = some (v1, v2, w))
    (i j : Nat)
    (hi : keyIndex (g.vertices.map Prod.fst) v1 = some i)
    (hj : keyIndex (g.vertices.map Prod.fst) v2 = some j)
    (hw : w ≠ 0) (hvv : v1 ≠ v2) :
    matGet M i c 0 = w ∧
    matGet M j c 0 = (if g.directed then -w else w) ∧
    (∀ r, r ≠ i → r ≠ j → matGet M r c 0 = 0) ∧
    ((Finset.range g.vertices.length).filter (fun r => matGet M r c 0 ≠ 0)).card = 2 ∧
    (g.directed = true →
      (Finset.range g.vertices.length).sum (fun r => matGet M r c 0) = 0) := by
  have hkeys : (g.vertices.map Prod.fst).length = g.vertices.length := by simp
  simp only [Graph.incidence_matrix] at hM
  have hij : i ≠ j := by
    intro hh
    apply hvv
    have gi := keyIndex_getD _ _ _ hi
    have gj := keyIndex_getD _ _ _ hj
    rw [← gi, ← gj, hh]
  have hlen : c < (scanEdges g.allEdges [] []).length := by
    rcases List.getElem?_eq_some_iff.mp hc with ⟨h, _⟩
    exact h
  have hcols := incFold_col (g.vertices.map Prod.fst) g.directed g.vertices.length
    (scanEdges g.allEdges [] []).length hkeys (scanEdges g.allEdges [] []) c 0 _ M
    v1 v2 w i j hM (shape_replicate _ _ 0) hc hi hj (by omega) hij
    (fun r => matGet_replicate _ _ _ _ 0)
  simp only [Nat.zero_add] at hcols
  obtain ⟨h1, h2, h3⟩ := hcols
  have hi2 : i < g.vertices.length := by have := keyIndex_lt _ _ _ hi; omega
  have hj2 : j < g.vertices.length := by have := keyIndex_lt _ _ _ hj; omega
  have hdval : (if g.directed then -w else w) ≠ 0 := by
    cases g.directed <;> simp [hw]
  have hfil : (Finset.range g.vertices.length).filter (fun r => matGet M r c 0 ≠ 0) =
      {i, j} := by
    ext r
    simp only [Finset.mem_filter, Finset.mem_range, Finset.mem_insert, Finset.mem_singleton]
    constructor
    · rintro ⟨_, hnz⟩
      by_cases hri : r = i
      · exact Or.inl hri
      by_cases hrj : r = j
      · exact Or.inr hrj
      exact absurd (h3 r hri hrj) hnz
    · rintro (rfl | rfl)
      · exact ⟨hi2, by rw [h1]; exact hw⟩
      · exact ⟨hj2, by rw [h2]; exact hdval⟩
  refine ⟨h1, h2, h3, ?_, ?_⟩
  · rw [hfil]
    exact Finset.card_pair hij
  · intro hd
    have hsub : ({i, j} : Finset Nat) ⊆ Finset.range g.vertices.length := by
      intro x hx
      simp only [Finset.mem_insert, Finset.mem_singleton] at hx
      rcases hx with rfl | rfl
      · exact Finset.mem_range.mpr hi2
      · exact Finset.mem_range.mpr hj2
    have hzero : ∀ x ∈ Finset.range g.vertices.length, x ∉ ({i, j} : Finset Nat) →
        matGet M x c 0 = 0 := by
      intro x _ hxn
      simp only [Finset.mem_insert, Finset.mem_singleton, not_or] at hxn
      exact h3 x hxn.1 hxn.2
    rw [← Finset.sum_subset hsub hzero, Finset.sum_pair hij, h1, h2, hd]
    simp

/-- Witness for amended C7: the directed A→B graph with weight 5. -/
theorem incidence_column_two_nonzero_witness :
    matGet ([[5], [-5]] : List (List Int)) 0 0 0 = 5 ∧
    matGet ([[5], [-5]] : List (List Int)) 1 0 0 = (if dirPair.directed then -5 else 5) ∧
    (∀ r, r ≠ 0 → r ≠ 1 → matGet ([[5], [-5]] : List (List Int)) r 0 0 = 0) ∧
    ((Finset.range dirPair.vertices.length).filter
      (fun r => matGet ([[5], [-5]] : List (List Int)) r 0 0 ≠ 0)).card = 2 ∧
    (dirPair.directed = true →
      (Finset.range dirPair.vertices.length).sum
        (fun r => matGet ([[5], [-5]] : List (List Int)) r 0 0) = 0) :=
  incidence_column_two_nonzero dirPair [[5], [-5]] rfl 0 "A" "B" 5 rfl 0 1 rfl rfl
    (by decide) (by decide)

/-- Counterexample to C7 as stated: the undirected self-loop on A yields an
incidence column with exactly one nonzero entry, not two (the second write
lands on the same row and overwrites the first), and a zero-weight edge
yields a column with no nonzero entry at all. -/
theorem self_loop_single_incidence_entry :
    loopGraph.incidence_matrix = some [[1]] ∧
    ((Finset.range loopGraph.vertices.length).filter
      (fun r => matGet ([[1]] : List (List Int)) r 0 0 ≠ 0)).card = 1 ∧
    ¬ ((Finset.range loopGraph.vertices.length).filter
      (fun r => matGet ([[1]] : List (List Int)) r 0 0 ≠ 0)).card = 2 ∧
    zeroWeightGraph.incidence_matrix = some [[0], [0]] ∧
    ((Finset.range zeroWeightGraph.vertices.length).filter
      (fun r => matGet ([[0], [0]] : List (List Int)) r 0 0 ≠ 0)).card = 0 :=
  ⟨rfl, by decide, by decide, rfl, by decide⟩

end Graphs
